import Mathlib

/-
Verification of the `NasEnv` reinforcement-learning environment from
`metanas/env/core.py` (meta-fsl-nas).

The environment wraps a DARTS-style meta-model: per cell edge it keeps a raw
operation-weight row (the "alphas"), exposes a softmax-normalized view of it,
and lets an RL agent traverse the cell graph or increase/decrease the
normalized weight of one operation.  Mutations happen on the normalized view
and are written back through an inverse-softmax transform
`raw = ln(normalized) + ln 10`.

Shallow embedding conventions:
  * python floats are modelled as exact numbers; the row-level mutation
    operators (`increaseOp`, `decreaseOp`, `scaleReward`) are polymorphic over
    a `LinearOrderedField` so that they can be evaluated on `ℚ` inputs and
    composed with the real-valued softmax;
  * `torch` tensors become lists; in-place tensor mutation becomes explicit
    state passing on the `Env` structure;
  * python dicts (`edge_to_index`, `edge_to_alpha`) become association lists
    with last-write-wins lookup (`dictGetLast`);
  * fallible code (KeyError / IndexError / `raise`) returns `Except String`.
-/

namespace MetaNas

/-! ## Softmax and its inverse (`F.softmax`, `NasEnv._inverse_softmax`) -/

/-- `F.softmax(x, dim=-1)` on one operation-weight row. -/
noncomputable def softmax (x : List ℝ) : List ℝ :=
  x.map (fun v => Real.exp v / (x.map Real.exp).sum)

/-- `NasEnv._inverse_softmax(x, C) = torch.log(x) + C`, applied elementwise. -/
noncomputable def inverseSoftmax (x : List ℝ) (C : ℝ) : List ℝ :=
  x.map (fun v => Real.log v + C)

/-! ## Row-level mutation operators (`increase_op` / `decrease_op`)

`increase_op(row_idx, edge_idx, op_idx, prob=0.3)` works on the normalized
row `x = normalized_alphas[row_idx][edge_idx]`; `curr_op = x[op_idx]`.
The in-place tensor mutation (`curr_op += prob; curr_edge += 0.01`) is
modelled by returning the mutated row; the write-back of
`inverse_softmax(curr_edge, C)` into `meta_model.alpha_normal` happens at
the environment level. -/

variable {K : Type*} [LinearOrderedField K]

/-- The clamped amount of `increase_op`: `if curr_op + prob > 1.0` then
`prob -= (curr_op + prob - 0.99)`. -/
def clampInc (x : List K) (k : ℕ) (p : K) : K :=
  let currOp := x.getD k 0
  if currOp + p > 1 then p - (currOp + p - 99/100) else p

/-- The clamped amount of `decrease_op`: `if curr_op - prob < 0.0` then
`prob -= (prob - curr_op + 0.01)`. -/
def clampDec (x : List K) (k : ℕ) (p : K) : K :=
  let currOp := x.getD k 0
  if currOp - p < 0 then p - (p - currOp + 1/100) else p

/-- `NasEnv.increase_op` restricted to the normalized row it mutates:
returns the `True/False` update flag and the row after
`curr_op += prob; curr_edge += 0.01` (unchanged when no update occurred). -/
def increaseOp (x : List K) (k : ℕ) (p : K) : Bool × List K :=
  if x.getD k 0 + clampInc x k p < 1 then
    (true, (x.set k (x.getD k 0 + clampInc x k p)).map (· + 1/100))
  else
    (false, x)

/-- `NasEnv.decrease_op` restricted to the normalized row it mutates. -/
def decreaseOp (x : List K) (k : ℕ) (p : K) : Bool × List K :=
  if x.getD k 0 - clampDec x k p > 0 then
    (true, (x.set k (x.getD k 0 - clampDec x k p)).map (· + 1/100))
  else
    (false, x)

/-! ## Reward scaling (`NasEnv.scale_reward`) -/

/-- `NasEnv.scale_reward(accuracy)`: dual-segment linear remap pivoted at the
running baseline accuracy. -/
def scaleReward (baselineAcc accuracy : K) : K :=
  if baselineAcc = accuracy then 0
  else if baselineAcc ≤ accuracy then
    0 + (accuracy - baselineAcc) * (4 - 0) / (1 - baselineAcc)
  else
    (-1/10) + (accuracy - 0) * (0 - (-1/10)) / (baselineAcc - 0)

/-- Setting position `k` of a list to the value it already holds is the
identity. -/
theorem list_set_getD_self {α : Type*} (x : List α) (k : ℕ) (d : α)
    (hk : k < x.length) : x.set k (x.getD k d) = x := by
  induction x generalizing k with
  | nil => simp at hk
  | cons a t ih =>
    cases k with
    | zero => simp
    | succ m =>
      simp only [List.set, List.getD, List.get?, List.length_cons] at *
      simp only [List.cons.injEq, true_and]
      exact ih m (Nat.lt_of_succ_lt_succ hk)

/-- `getD` commutes with `map` at in-range positions. -/
theorem list_getD_map {α β : Type*} (f : α → β) (x : List α) (k : ℕ) (d : α)
    (hk : k < x.length) : (x.map f).getD k (f d) = f (x.getD k d) := by
  induction x generalizing k with
  | nil => simp at hk
  | cons a t ih =>
    cases k with
    | zero => simp
    | succ m => simpa using ih m (by simpa using hk)

/-! ## Claims about the row-level operators -/

/-- **C1** (corrected, counterexample).  The spec claims that `decrease_op` on
a normalized weight equal to `0.0` with the default amount `0.3` is a no-op
returning `False`.  On the row `[0, 1/2, 1/2]` at operation `0` the code
clamps the amount to `-0.01`, passes the `curr_op - prob > 0.0` test, mutates
the row and returns `True`. -/
theorem decrease_op_zero_weight_not_noop :
    (decreaseOp ([0, 1/2, 1/2] : List ℚ) 0 (3/10)).1 = true ∧
    (decreaseOp ([0, 1/2, 1/2] : List ℚ) 0 (3/10)).2 ≠ [0, 1/2, 1/2] := by
  norm_num [decreaseOp, clampDec]

/-- **C1** (amended).  `decrease_op` on a normalized weight equal to `0.0`
with the default amount `0.3` is *not* a no-op: the clamp
`prob -= prob - curr_op + 0.01` makes the amount `-0.01`, the guard
`curr_op - prob > 0.0` then holds, so the call returns `True`, raises the
targeted value to `0.01`, adds the `0.01` floor to every value and triggers
the raw write-back. -/
theorem decrease_op_at_zero_clamps_and_applies (x : List ℚ) (k : ℕ)
    (hk : k < x.length) (h0 : x.getD k 0 = 0) :
    decreaseOp x k (3/10) = (true, (x.set k (1/100)).map (· + 1/100)) := by
  have : (0 : ℚ) - -(1/100) = 1/100 := by norm_num
  simp only [decreaseOp, clampDec, h0]
  norm_num

/-- Witness for `decrease_op_at_zero_clamps_and_applies` at the concrete row
`[0, 1/2, 1/2]`, operation `0`. -/
theorem decrease_op_at_zero_clamps_and_applies_witness :
    (0 < ([0, 1/2, 1/2] : List ℚ).length) ∧
    (([0, 1/2, 1/2] : List ℚ).getD 0 0 = 0) ∧
    decreaseOp ([0, 1/2, 1/2] : List ℚ) 0 (3/10) =
      (true, (([0, 1/2, 1/2] : List ℚ).set 0 (1/100)).map (· + 1/100)) :=
  ⟨by norm_num, by norm_num,
    decrease_op_at_zero_clamps_and_applies [0, 1/2, 1/2] 0 (by norm_num)
      (by norm_num)⟩

/-- **C2** (corrected, counterexample).  The spec claims that a fully clamped
increase (target already at `0.99`, requested amount `0.3`) "returns false
without writing back".  On the row `[99/100, 1/100]` at operation `0` the
clamp reduces the amount to `0`, but `curr_op + prob = 0.99 < 1.0` still
holds, so the code mutates the row (adding the `0.01` floor everywhere) and
returns `True`. -/
theorem increase_op_full_clamp_still_writes :
    (increaseOp ([99/100, 1/100] : List ℚ) 0 (3/10)).1 = true ∧
    (increaseOp ([99/100, 1/100] : List ℚ) 0 (3/10)).2 ≠ [99/100, 1/100] := by
  norm_num [increaseOp, clampInc]

/-- **C2** (amended).  `increase_op` on a normalized weight equal to `0.99`
with requested amount `0.3` clamps the amount to `0` (the target is not moved
above `0.99` by the increase itself), but the call still returns `True` and
writes the row back with the `0.01` floor added to every value. -/
theorem increase_op_at_099_clamps_to_floor_only (x : List ℚ) (k : ℕ)
    (hk : k < x.length) (h99 : x.getD k 0 = 99/100) :
    increaseOp x k (3/10) = (true, x.map (· + 1/100)) := by
  have hmap : (x.map (· + 1/100)).getD k ((fun v : ℚ => v + 1/100) 0)
      = x.getD k 0 + 1/100 := list_getD_map (· + 1/100) x k 0 hk
  have hset : (x.map (· + 1/100)).set k 1 = x.map (· + 1/100) := by
    have h := list_set_getD_self (x.map (· + 1/100)) k
      ((fun v : ℚ => v + 1/100) 0) (by simpa using hk)
    rw [hmap, h99] at h
    norm_num at h
    exact h
  simp only [increaseOp, clampInc, h99]
  norm_num [hset]

/-- Witness for `increase_op_at_099_clamps_to_floor_only` at the concrete row
`[99/100, 1/100]`, operation `0`. -/
theorem increase_op_at_099_clamps_to_floor_only_witness :
    (0 < ([99/100, 1/100] : List ℚ).length) ∧
    (([99/100, 1/100] : List ℚ).getD 0 0 = 99/100) ∧
    increaseOp ([99/100, 1/100] : List ℚ) 0 (3/10) =
      (true, ([99/100, 1/100] : List ℚ).map (· + 1/100)) :=
  ⟨by norm_num, by norm_num,
    increase_op_at_099_clamps_to_floor_only [99/100, 1/100] 0 (by norm_num)
      (by norm_num)⟩

/-- **C3** (confirmed).  `scale_reward` returns exactly `0` when the accuracy
equals the baseline, remaps accuracies above the baseline by
`0 + (a-b)*(4-0)/(1-b)`, remaps accuracies below the baseline by
`-0.1 + (a-0)*(0-(-0.1))/(b-0)`, and in particular maps baseline `0.5`,
accuracy `0.75` to exactly `2`. -/
theorem scale_reward_piecewise (b a : ℚ)
    (hb0 : 0 ≤ b) (hb1 : b ≤ 1) (ha0 : 0 ≤ a) (ha1 : a ≤ 1) :
    (a = b → scaleReward b a = 0) ∧
    (b < a → scaleReward b a = 0 + (a - b) * (4 - 0) / (1 - b)) ∧
    (a < b → scaleReward b a = -1/10 + (a - 0) * (0 - (-1/10)) / (b - 0)) ∧
    scaleReward (1/2 : ℚ) (3/4) = 2 := by
  refine ⟨fun h => ?_, fun h => ?_, fun h => ?_, by norm_num [scaleReward]⟩
  · rw [scaleReward, if_pos h.symm]
  · rw [scaleReward, if_neg (ne_of_lt h), if_pos (le_of_lt h)]
  · rw [scaleReward, if_neg (ne_of_gt h), if_neg (not_le.mpr h)]

/-- Witness for `scale_reward_piecewise` at baseline `0.5`, accuracy `0.75`. -/
theorem scale_reward_piecewise_witness :
    scaleReward (1/2 : ℚ) (3/4) = 0 + (3/4 - 1/2) * (4 - 0) / (1 - 1/2) ∧
    scaleReward (1/2 : ℚ) (3/4) = 2 :=
  ⟨(scale_reward_piecewise (1/2) (3/4) (by norm_num) (by norm_num)
      (by norm_num) (by norm_num)).2.1 (by norm_num),
   (scale_reward_piecewise (1/2) (3/4) (by norm_num) (by norm_num)
      (by norm_num) (by norm_num)).2.2.2⟩

/-! ## `compute_reward`'s test branch (C4) and `reset`'s precondition (C5) -/

/-- The python values the `test_env` attribute is compared against in
`core.py`: the constructor default `None`, the literal `False`, or an actual
test-environment object. -/
inductive PyTestEnv
  | noneV
  | falseV
  | envObj
deriving DecidableEq

/-- `compute_reward` enters its synthetic branch on
`if self.test_env is not None`. -/
def isTestMode : PyTestEnv → Bool
  | PyTestEnv.noneV => false
  | _ => true

/-- The python identity test `test_env is False`. -/
def isFalseLiteral : PyTestEnv → Bool
  | PyTestEnv.falseV => true
  | _ => false

/-- The shape of the python value `compute_reward` returns: the `test_env`
branch returns the bare scalar `np.random.uniform(low=-1, high=1,
size=(1,))[0]`, while the normal path returns the `(reward, acc)` pair. -/
inductive RewardResult
  | scalar (r : ℚ)
  | pair (r : ℚ) (acc : Option ℚ)
deriving DecidableEq

/-- `NasEnv.compute_reward`.  The accuracy-estimation paths
(`_darts_estimation` / `_meta_predictor_estimation`) run the external
trainable model or surrogate predictor, so the estimated accuracy `acc` and
the sampled uniform value `u` are parameters of the embedding. -/
def computeReward (testEnv : PyTestEnv) (u : ℚ) (baselineAcc acc : ℚ) :
    RewardResult :=
  if isTestMode testEnv then RewardResult.scalar u
  else RewardResult.pair (scaleReward baselineAcc acc) (some acc)

/-- **C4** (code bug).  With a test environment set, `compute_reward` returns
the bare sampled scalar, *not* the `(reward, accuracy|None)` pair the
contract declares; every caller in `core.py` (including `reset`) unpacks two
values from it, which fails on a bare scalar. -/
theorem compute_reward_test_env_returns_bare_scalar
    (u baselineAcc acc : ℚ) :
    computeReward PyTestEnv.envObj u baselineAcc acc = RewardResult.scalar u ∧
    ∀ r oacc,
      computeReward PyTestEnv.envObj u baselineAcc acc ≠
        RewardResult.pair r oacc := by
  refine ⟨rfl, fun r oacc h => ?_⟩
  simp [computeReward, isTestMode] at h

/-- The precondition assertion at the top of `NasEnv.reset`:
`assert not (self.current_task is None and self.test_env is False)`.
Returns `true` exactly when the assertion passes. -/
def resetAssertOk (currentTask : Option Unit) (testEnv : PyTestEnv) : Bool :=
  !(currentTask.isNone && isFalseLiteral testEnv)

/-- **C5** (corrected, counterexample).  An environment with no active task
and the constructor default `test_env = None` is not in a designated test
mode (`compute_reward` takes the real path), yet `reset`'s assertion passes:
the assert compares `test_env is False`, which `None` fails. -/
theorem reset_assert_passes_without_task_counterexample :
    resetAssertOk none PyTestEnv.noneV = true ∧
    isTestMode PyTestEnv.noneV = false := by
  decide

/-- **C5** (amended).  `reset`'s precondition assertion fires exactly when no
task is set *and* `test_env` is literally `False`; with the default
`test_env = None` (not a test mode), `reset` proceeds past the assertion even
without a task. -/
theorem reset_assert_fires_iff_no_task_and_false_test_env
    (task : Option Unit) (testEnv : PyTestEnv) :
    resetAssertOk task testEnv = false ↔
      task = none ∧ testEnv = PyTestEnv.falseV := by
  cases task <;> cases testEnv <;> simp [resetAssertOk, isFalseLiteral]

/-! ## Sum and renormalization of rebuilt rows (C6, C10)

After a successful `increase_op`/`decrease_op`, the caller
(`NasEnv._perform_action`) re-runs `update_states`, which recomputes
`normalized_alphas = softmax(alpha_normal)`; the raw row written back was
`inverse_softmax(curr_edge, ln 10)`, so the rebuilt normalized row is
`softmax (inverseSoftmax y C)` for the mutated normalized row `y`. -/

/-- `sum (map (· + c) l) = sum l + length l * c`. -/
theorem list_sum_map_add_const (l : List ℚ) (c : ℚ) :
    (l.map (· + c)).sum = l.sum + (l.length : ℚ) * c := by
  induction l with
  | nil => simp
  | cons a t ih => simp [ih]; ring

/-- Sum after an in-range `set`. -/
theorem list_sum_set (x : List ℚ) (k : ℕ) (v : ℚ) (hk : k < x.length) :
    (x.set k v).sum = x.sum - x.getD k 0 + v := by
  induction x generalizing k with
  | nil => simp at hk
  | cons a t ih =>
    cases k with
    | zero => simp; ring
    | succ m =>
      have := ih m (by simpa using hk)
      simp [this]; ring

/-- Casting a rational row to the reals commutes with the sum. -/
theorem list_sum_map_ratCast (l : List ℚ) :
    (l.map (fun v : ℚ => (v : ℝ))).sum = (l.sum : ℝ) := by
  induction l with
  | nil => simp
  | cons a t ih =>
    rw [List.map_cons, List.sum_cons, List.sum_cons, ih]
    push_cast
    ring

/-- A softmax row always sums to `1` (the exponentials are positive, so the
normalizing denominator is nonzero for a nonempty row). -/
theorem softmax_sum_eq_one (z : List ℝ) (hz : z ≠ []) :
    (softmax z).sum = 1 := by
  have hpos : 0 < (z.map Real.exp).sum := by
    refine List.sum_pos _ ?_ (by simpa using hz)
    intro v hv
    rcases List.mem_map.mp hv with ⟨w, _, rfl⟩
    exact Real.exp_pos w
  unfold softmax
  simp only [div_eq_mul_inv]
  rw [List.sum_map_mul_right, mul_inv_cancel₀ (ne_of_gt hpos)]

/-- `softmax (log y + C) = y / sum y` for rows with positive entries,
independently of the constant `C`. -/
theorem softmax_inverseSoftmax (z : List ℝ) (C : ℝ)
    (hz : ∀ v ∈ z, 0 < v) :
    softmax (inverseSoftmax z C) = z.map (fun v => v / z.sum) := by
  have hexp : ∀ v ∈ z, Real.exp (Real.log v + C) = v * Real.exp C := by
    intro v hv
    rw [Real.exp_add, Real.exp_log (hz v hv)]
  have hmap : (inverseSoftmax z C).map Real.exp
      = z.map (fun v => v * Real.exp C) := by
    unfold inverseSoftmax
    rw [List.map_map]
    refine List.map_congr_left ?_
    intro v hv
    simpa using hexp v hv
  have hsum : ((inverseSoftmax z C).map Real.exp).sum = z.sum * Real.exp C := by
    rw [hmap, List.sum_map_mul_right, List.map_id']
  unfold softmax
  rw [hsum]
  unfold inverseSoftmax
  rw [List.map_map]
  refine List.map_congr_left ?_
  intro v hv
  have hs : z.sum ≠ 0 :=
    ne_of_gt (List.sum_pos z hz (List.ne_nil_of_mem hv))
  simp only [Function.comp_apply]
  rw [hexp v hv]
  field_simp
  ring

/-- **C6** (confirmed).  Immediately after an `increase_op` or `decrease_op`
call that returns `True` — which makes `_perform_action` rebuild the state
via `update_states` — the rebuilt softmax-normalized row sums to exactly `1`
(within any tolerance of `1.0`): the raw row written back is
`inverse_softmax(y, ln 10)` for the mutated row `y`, and every softmax row
sums to `1`. -/
theorem row_sum_one_after_successful_update (x : List ℚ) (k : ℕ) (p : ℚ)
    (y : List ℚ) (hy : y ≠ []) :
    (increaseOp x k p = (true, y) →
      (softmax (inverseSoftmax (y.map (fun v : ℚ => (v : ℝ)))
        (Real.log 10))).sum = 1) ∧
    (decreaseOp x k p = (true, y) →
      (softmax (inverseSoftmax (y.map (fun v : ℚ => (v : ℝ)))
        (Real.log 10))).sum = 1) := by
  have hne : inverseSoftmax (y.map (fun v : ℚ => (v : ℝ))) (Real.log 10) ≠ [] := by
    unfold inverseSoftmax
    simpa using hy
  exact ⟨fun _ => softmax_sum_eq_one _ hne, fun _ => softmax_sum_eq_one _ hne⟩

/-- A successful `increase_op` produces exactly the row
`(x with op k raised by the clamped amount), then +0.01 everywhere`. -/
theorem increase_op_true_characterization (x : List ℚ) (k : ℕ) (p : ℚ)
    (y : List ℚ) (h : increaseOp x k p = (true, y)) :
    y = (x.set k (x.getD k 0 + clampInc x k p)).map (· + 1/100) := by
  unfold increaseOp at h
  split at h
  · exact (Prod.mk.injEq _ _ _ _ ▸ h).2.symm
  · simp at h

/-- A successful `decrease_op` produces exactly the row
`(x with op k lowered by the clamped amount), then +0.01 everywhere`. -/
theorem decrease_op_true_characterization (x : List ℚ) (k : ℕ) (p : ℚ)
    (y : List ℚ) (h : decreaseOp x k p = (true, y)) :
    y = (x.set k (x.getD k 0 - clampDec x k p)).map (· + 1/100) := by
  unfold decreaseOp at h
  split at h
  · exact (Prod.mk.injEq _ _ _ _ ▸ h).2.symm
  · simp at h

/-- **C10** (confirmed).  `softmax (ln z + C) = z / sum z` for every strictly
positive row `z` and every constant `C`; hence after a successful increase
(resp. decrease) of operation `k` by the clamped amount, followed by the
`update_states` rebuild, the rebuilt normalized row is the mutated row `y`
divided by `sum x + p' + 0.01 * n` (resp. `sum x - p' + 0.01 * n`),
independently of the constant `C = ln 10` used by the write-back. -/
theorem inverse_softmax_roundtrip_renormalizes :
    (∀ (z : List ℝ) (C : ℝ), (∀ v ∈ z, 0 < v) →
      softmax (inverseSoftmax z C) = z.map (fun v => v / z.sum)) ∧
    (∀ (x y : List ℚ) (k : ℕ) (p : ℚ) (C : ℝ), k < x.length →
      (∀ v ∈ y, (0 : ℚ) < v) → increaseOp x k p = (true, y) →
      y.sum = x.sum + clampInc x k p + (x.length : ℚ) * (1/100) ∧
      softmax (inverseSoftmax (y.map (fun v : ℚ => (v : ℝ))) C)
        = y.map (fun v : ℚ => (v : ℝ) /
            ((x.sum + clampInc x k p + (x.length : ℚ) * (1/100) : ℚ) : ℝ))) ∧
    (∀ (x y : List ℚ) (k : ℕ) (p : ℚ) (C : ℝ), k < x.length →
      (∀ v ∈ y, (0 : ℚ) < v) → decreaseOp x k p = (true, y) →
      y.sum = x.sum - clampDec x k p + (x.length : ℚ) * (1/100) ∧
      softmax (inverseSoftmax (y.map (fun v : ℚ => (v : ℝ))) C)
        = y.map (fun v : ℚ => (v : ℝ) /
            ((x.sum - clampDec x k p + (x.length : ℚ) * (1/100) : ℚ) : ℝ))) := by
  refine ⟨softmax_inverseSoftmax, ?_, ?_⟩
  · intro x y k p C hk hpos h
    have hy := increase_op_true_characterization x k p y h
    have hsum : y.sum = x.sum + clampInc x k p + (x.length : ℚ) * (1/100) := by
      rw [hy, list_sum_map_add_const, list_sum_set x k _ hk]
      simp only [List.length_set]
      ring
    refine ⟨hsum, ?_⟩
    have hzpos : ∀ v ∈ y.map (fun v : ℚ => (v : ℝ)), 0 < v := by
      intro v hv
      rcases List.mem_map.mp hv with ⟨w, hw, rfl⟩
      exact_mod_cast hpos w hw
    rw [softmax_inverseSoftmax _ C hzpos, list_sum_map_ratCast, List.map_map]
    refine List.map_congr_left ?_
    intro v hv
    simp only [Function.comp_apply]
    rw [hsum]
  · intro x y k p C hk hpos h
    have hy := decrease_op_true_characterization x k p y h
    have hsum : y.sum = x.sum - clampDec x k p + (x.length : ℚ) * (1/100) := by
      rw [hy, list_sum_map_add_const, list_sum_set x k _ hk]
      simp only [List.length_set]
      ring
    refine ⟨hsum, ?_⟩
    have hzpos : ∀ v ∈ y.map (fun v : ℚ => (v : ℝ)), 0 < v := by
      intro v hv
      rcases List.mem_map.mp hv with ⟨w, hw, rfl⟩
      exact_mod_cast hpos w hw
    rw [softmax_inverseSoftmax _ C hzpos, list_sum_map_ratCast, List.map_map]
    refine List.map_congr_left ?_
    intro v hv
    simp only [Function.comp_apply]
    rw [hsum]

/-- Witness for `inverse_softmax_roundtrip_renormalizes`: increasing
operation `0` of the row `[1/2, 1/2]` by the default `0.3` yields
`[81/100, 51/100]`, whose rebuilt normalization divides by the sum
`132/100`. -/
theorem inverse_softmax_roundtrip_renormalizes_witness :
    (0 < ([1/2, 1/2] : List ℚ).length) ∧
    ([81/100, 51/100] : List ℚ).sum
      = ([1/2, 1/2] : List ℚ).sum + clampInc ([1/2, 1/2] : List ℚ) 0 (3/10)
        + ((([1/2, 1/2] : List ℚ).length : ℚ)) * (1/100) ∧
    softmax (inverseSoftmax (([81/100, 51/100] : List ℚ).map
        (fun v : ℚ => (v : ℝ))) (Real.log 10))
      = ([81/100, 51/100] : List ℚ).map (fun v : ℚ => (v : ℝ) /
          ((([1/2, 1/2] : List ℚ).sum + clampInc ([1/2, 1/2] : List ℚ) 0 (3/10)
            + ((([1/2, 1/2] : List ℚ).length : ℚ)) * (1/100) : ℚ) : ℝ)) := by
  have h := inverse_softmax_roundtrip_renormalizes.2.1 [1/2, 1/2] [81/100, 51/100]
    0 (3/10) (Real.log 10) (by norm_num)
    (by
      intro v hv
      simp only [List.mem_cons, List.not_mem_nil, or_false] at hv
      rcases hv with rfl | rfl <;> norm_num)
    (by norm_num [increaseOp, clampInc])
  exact ⟨by norm_num, h.1, h.2⟩

/-- Witness for `row_sum_one_after_successful_update`: on the row
`[1/2, 1/2]`, increasing operation `0` by the default `0.3` succeeds and
produces the row `[81/100, 51/100]`. -/
theorem row_sum_one_after_successful_update_witness :
    ([81/100, 51/100] : List ℚ) ≠ [] ∧
    increaseOp ([1/2, 1/2] : List ℚ) 0 (3/10) = (true, [81/100, 51/100]) ∧
    (softmax (inverseSoftmax (([81/100, 51/100] : List ℚ).map
      (fun v : ℚ => (v : ℝ))) (Real.log 10))).sum = 1 :=
  ⟨by simp, by norm_num [increaseOp, clampInc],
    (row_sum_one_after_successful_update [1/2, 1/2] 0 (3/10) [81/100, 51/100]
      (by simp)).1 (by norm_num [increaseOp, clampInc])⟩

/-! ## Python dictionaries

`edge_to_index` and `edge_to_alpha` are python dicts keyed by node pairs;
the embedding uses association lists in insertion order with
last-write-wins lookup. -/

/-- Python-dict lookup on an association list: later entries override
earlier ones. -/
def dictGetLast {β : Type*} : List ((ℕ × ℕ) × β) → (ℕ × ℕ) → Option β
  | [], _ => none
  | (k, v) :: rest, key =>
    match dictGetLast rest key with
    | some w => some w
    | none => if k = key then some v else none

/-! ## State-table construction (`update_states`) -/

/-- The `edge_to_index` entries of one row `i` of `update_states`'s loop:
edge `j` contributes `(j, i+2) ↦ s_idx` and `(i+2, j) ↦ s_idx + 1`, after
which `s_idx` advances by `2`. -/
def rowEntries {E : Type*} (i : ℕ) : List E → ℕ → ℕ → List ((ℕ × ℕ) × ℕ)
  | [], _, _ => []
  | _ :: es, j, s =>
    ((j, i + 2), s) :: ((i + 2, j), s + 1) :: rowEntries i es (j + 1) (s + 2)

/-- The `edge_to_index` entries of `update_states` for rows `i, i+1, …`,
starting at state index `s`. -/
def edgeIndexEntries {E : Type*} : List (List E) → ℕ → ℕ → List ((ℕ × ℕ) × ℕ)
  | [], _, _ => []
  | row :: rest, i, s =>
    rowEntries i row 0 s ++ edgeIndexEntries rest (i + 1) (s + 2 * row.length)

/-- `edge_to_index` as built by `update_states`. -/
def buildEdgeToIndex {E : Type*} (normalizedAlphas : List (List E)) :
    List ((ℕ × ℕ) × ℕ) :=
  edgeIndexEntries normalizedAlphas 0 0

/-- The `edge_to_alpha` entries of one row: both directions of edge `j`
map to the alpha coordinates `(i, j)`. -/
def rowAlphaEntries {E : Type*} (i : ℕ) : List E → ℕ → List ((ℕ × ℕ) × (ℕ × ℕ))
  | [], _ => []
  | _ :: es, j =>
    ((j, i + 2), (i, j)) :: ((i + 2, j), (i, j)) :: rowAlphaEntries i es (j + 1)

/-- The `edge_to_alpha` entries of `update_states` for rows `i, i+1, …`. -/
def edgeAlphaEntries {E : Type*} : List (List E) → ℕ → List ((ℕ × ℕ) × (ℕ × ℕ))
  | [], _ => []
  | row :: rest, i => rowAlphaEntries i row 0 ++ edgeAlphaEntries rest (i + 1)

/-- `edge_to_alpha` as built by `update_states`. -/
def buildEdgeToAlpha {E : Type*} (normalizedAlphas : List (List E)) :
    List ((ℕ × ℕ) × (ℕ × ℕ)) :=
  edgeAlphaEntries normalizedAlphas 0

/-- The adjacency matrix `A = np.ones((n, n)) - np.eye(n)` with
`A[0, 1] = A[1, 0] = 0` (the two input nodes are mutually disconnected).
Indices outside the `n × n` range never arise for well-formed states. -/
def Amat (i j : ℕ) : ℚ :=
  if i = j then 0
  else if (i = 0 ∧ j = 1) ∨ (i = 1 ∧ j = 0) then 0
  else 1

/-- Row `i` of the adjacency matrix (`self.A[i]`). -/
def Arow (n i : ℕ) : List ℚ := (List.range n).map (Amat i)

/-- Index of the first maximal element of a row
(`torch.topk(·, 1)` index, ties broken towards the lower index). -/
noncomputable def argmaxIdx : List ℝ → ℕ
  | [] => 0
  | [_] => 0
  | v :: rest =>
    let j := argmaxIdx rest
    if v < rest.getD j 0 then j + 1 else 0

/-- Maximum entry of a row (the `edge_max` value of `torch.topk(edges, 1)`). -/
noncomputable def listMax : List ℝ → ℝ
  | [] => 0
  | v :: rest => rest.foldl max v

/-- Indices of the two largest entries (`torch.topk(·, k=2)`): the argmax,
then the argmax of the row with that entry removed, re-indexed into the
original row. -/
noncomputable def top2Idx (l : List ℝ) : ℕ × ℕ :=
  let i1 := argmaxIdx l
  let j := argmaxIdx (l.eraseIdx i1)
  (i1, if j < i1 then j else j + 1)

/-- One row of the state table.  `core.py` flattens
`[from_node], [to_node], [topk_flag], A[to_node], edge_weights` into one
numpy vector; the embedding keeps the components structured. -/
structure StateRow where
  fromNode : ℕ
  toNode : ℕ
  topkFlag : ℕ
  adjRow : List ℚ
  opWeights : List ℝ

/-- The two observation rows `update_states` appends for edge `j → i+2`
(one per direction; both share the operation-weight vector). -/
def edgeStates (n i j : ℕ) (flag : ℕ) (edge : List ℝ) : List StateRow :=
  [⟨j, i + 2, flag, Arow n (i + 2), edge⟩,
   ⟨i + 2, j, flag, Arow n j, edge⟩]

/-- The state rows of one alpha row `i`, with top-2 edge indices `tk`. -/
def rowStates (n i : ℕ) (tk : ℕ × ℕ) : List (List ℝ) → ℕ → List StateRow
  | [], _ => []
  | e :: es, j =>
    edgeStates n i j (if j = tk.1 ∨ j = tk.2 then 1 else 0) e
      ++ rowStates n i tk es (j + 1)

/-- The full state table over the normalized alpha rows. -/
noncomputable def statesOfAlphas (n : ℕ) : List (List (List ℝ)) → ℕ → List StateRow
  | [], _ => []
  | edges :: rest, i =>
    rowStates n i (top2Idx (edges.map listMax)) edges 0
      ++ statesOfAlphas n rest (i + 1)

/-! ## The environment state -/

/-- The `NasEnv` attributes read and written by `update_states`,
`_perform_action` and `step`.  External collaborators (the task, the
meta-model's non-architecture weights, the surrogate predictor) are
abstracted away; `alphaNormal` / `alphaReduce` are the meta-model's raw
architecture-weight rows, shared with the trainable model. -/
structure Env where
  cellType : String
  nNodes : ℕ
  nOps : ℕ
  maxEpLen : ℕ
  alphaNormal : List (List (List ℝ))
  alphaReduce : List (List (List ℝ))
  normalizedAlphas : List (List (List ℝ))
  alphas : List (List (List ℝ))
  states : List StateRow
  edgeToIndex : List ((ℕ × ℕ) × ℕ)
  edgeToAlpha : List ((ℕ × ℕ) × (ℕ × ℕ))
  currentStateIndex : ℕ
  currentState : StateRow
  stepCount : ℕ
  terminateEpisode : Bool
  baselineAcc : ℚ
  maxAcc : ℚ
  maxAlphas : List (List (List ℝ))

/-- `NasEnv.update_states`: recompute `normalized_alphas` (softmax over each
edge row), `alphas`, the state table and both edge maps from the weight
collection of the configured cell type; any other cell type raises
`RuntimeError`.  `current_state` and the episode counters are untouched. -/
noncomputable def updateStates (e : Env) : Except String Env :=
  if e.cellType = "normal" then
    Except.ok { e with
      normalizedAlphas := e.alphaNormal.map (fun row => row.map softmax)
      alphas := e.alphaNormal
      states := statesOfAlphas e.nNodes
        (e.alphaNormal.map (fun row => row.map softmax)) 0
      edgeToIndex := buildEdgeToIndex
        (e.alphaNormal.map (fun row => row.map softmax))
      edgeToAlpha := buildEdgeToAlpha
        (e.alphaNormal.map (fun row => row.map softmax)) }
  else if e.cellType = "reduce" then
    Except.ok { e with
      normalizedAlphas := e.alphaReduce.map (fun row => row.map softmax)
      alphas := e.alphaReduce
      states := statesOfAlphas e.nNodes
        (e.alphaReduce.map (fun row => row.map softmax)) 0
      edgeToIndex := buildEdgeToIndex
        (e.alphaReduce.map (fun row => row.map softmax))
      edgeToAlpha := buildEdgeToAlpha
        (e.alphaReduce.map (fun row => row.map softmax)) }
  else
    Except.error ("Cell type " ++ e.cellType ++ " is not supported.")

/-- **C9** (confirmed).  The state-table rebuild is a deterministic function
of the weight rows and cell type, and running it twice in a row with no
intervening mutation is the same as running it once: the second run reads
the same (untouched) `alpha_normal` / `alpha_reduce` rows and recomputes
identical `states`, `edge_to_index` and `edge_to_alpha`. -/
theorem update_states_idempotent (e : Env) :
    (updateStates e).bind updateStates = updateStates e := by
  by_cases h1 : e.cellType = "normal"
  · simp [updateStates, h1, Except.bind]
  · by_cases h2 : e.cellType = "reduce"
    · simp [updateStates, h1, h2, Except.bind]
    · simp [updateStates, h1, h2, Except.bind]

/-! ## Structure of `edge_to_index` (C7) -/

/-- Last-write-wins lookup over an append resolves in the second list
first. -/
theorem dictGetLast_append {β : Type*} (l1 l2 : List ((ℕ × ℕ) × β))
    (k : ℕ × ℕ) :
    dictGetLast (l1 ++ l2) k =
      match dictGetLast l2 k with
      | some v => some v
      | none => dictGetLast l1 k := by
  induction l1 with
  | nil =>
    simp only [List.nil_append, dictGetLast]
    cases dictGetLast l2 k <;> rfl
  | cons a t ih =>
    cases a with
    | mk k' v' =>
      simp only [List.cons_append, dictGetLast]
      rw [show dictGetLast (t.append l2) k = dictGetLast (t ++ l2) k from rfl,
        ih]
      cases h2 : dictGetLast l2 k with
      | some w => rfl
      | none =>
        cases ht : dictGetLast t k with
        | some w => rfl
        | none => rfl

/-- A successful dict lookup comes from an entry of the list. -/
theorem dictGetLast_eq_some_mem {β : Type*} (l : List ((ℕ × ℕ) × β))
    (k : ℕ × ℕ) (v : β) (h : dictGetLast l k = some v) : (k, v) ∈ l := by
  induction l with
  | nil => simp [dictGetLast] at h
  | cons a t ih =>
    cases a with
    | mk k' v' =>
      simp only [dictGetLast] at h
      cases ht : dictGetLast t k with
      | some w =>
        rw [ht] at h
        cases h
        exact List.mem_cons_of_mem _ (ih ht)
      | none =>
        rw [ht] at h
        by_cases hk : k' = k
        · rw [if_pos hk] at h
          cases h
          subst hk
          exact List.mem_cons_self _ _
        · rw [if_neg hk] at h
          cases h

/-- A key absent from the list looks up to `none`. -/
theorem dictGetLast_eq_none_of_not_mem {β : Type*} (l : List ((ℕ × ℕ) × β))
    (k : ℕ × ℕ) (h : ∀ v, (k, v) ∉ l) : dictGetLast l k = none := by
  cases hl : dictGetLast l k with
  | none => rfl
  | some v => exact absurd (dictGetLast_eq_some_mem l k v hl) (h v)

/-- Every key produced by `rowEntries i es j0 s0` is `(j, i+2)` or
`(i+2, j)` for some edge position `j0 ≤ j < j0 + |es|`. -/
theorem rowEntries_key_shape {E : Type*} (i : ℕ) (es : List E)
    (j0 s0 : ℕ) (a b v : ℕ) (h : ((a, b), v) ∈ rowEntries i es j0 s0) :
    ∃ j, j0 ≤ j ∧ j < j0 + es.length ∧
      ((a, b) = (j, i + 2) ∨ (a, b) = (i + 2, j)) := by
  induction es generalizing j0 s0 with
  | nil => simp [rowEntries] at h
  | cons e es' ih =>
    simp only [rowEntries, List.mem_cons] at h
    rcases h with h | h | h
    · exact ⟨j0, le_refl _, by simp, Or.inl (congrArg Prod.fst h)⟩
    · exact ⟨j0, le_refl _, by simp, Or.inr (congrArg Prod.fst h)⟩
    · rcases ih (j0 + 1) (s0 + 2) h with ⟨j, hj1, hj2, hj3⟩
      exact ⟨j, by omega, by simp at hj2 ⊢; omega, hj3⟩

/-- Every key produced by `edgeIndexEntries rows i0 s0` has a node of index
at least `i0 + 2`. -/
theorem edgeIndexEntries_key_lb {E : Type*} (rows : List (List E))
    (i0 s0 a b v : ℕ) (h : ((a, b), v) ∈ edgeIndexEntries rows i0 s0) :
    i0 + 2 ≤ max a b := by
  induction rows generalizing i0 s0 with
  | nil => simp [edgeIndexEntries] at h
  | cons row rest ih =>
    simp only [edgeIndexEntries, List.mem_append] at h
    rcases h with h | h
    · rcases rowEntries_key_shape i0 row 0 s0 a b v h with ⟨j, _, _, hj | hj⟩
      · cases hj
        simp
      · cases hj
        simp
    · have := ih (i0 + 1) (s0 + 2 * row.length) h
      omega

/-- Unfolding one dict entry: the rest of the list (later writes) is
consulted first. -/
theorem dictGetLast_cons {β : Type*} (k' : ℕ × ℕ) (v' : β)
    (rest : List ((ℕ × ℕ) × β)) (key : ℕ × ℕ) :
    dictGetLast ((k', v') :: rest) key =
      if (dictGetLast rest key).isSome then dictGetLast rest key
      else if k' = key then some v' else none := by
  simp only [dictGetLast]
  cases dictGetLast rest key <;> rfl

/-- Within one row's entries, the two directions of edge `j` occupy the two
adjacent state indices assigned to it. -/
theorem rowEntries_partner {E : Type*} (i : ℕ) (es : List E) (j0 s0 : ℕ)
    (hlen : j0 + es.length ≤ i + 2) (a b s : ℕ)
    (h : dictGetLast (rowEntries i es j0 s0) (a, b) = some s) :
    ∃ t, dictGetLast (rowEntries i es j0 s0) (b, a) = some t ∧
      t ≠ s ∧ (t = s + 1 ∨ s = t + 1) := by
  induction es generalizing j0 s0 with
  | nil => simp [rowEntries, dictGetLast] at h
  | cons e es' ih =>
    have hj0 : j0 < i + 2 := by
      simp only [List.length_cons] at hlen
      omega
    have hlen' : (j0 + 1) + es'.length ≤ i + 2 := by
      simp only [List.length_cons] at hlen
      omega
    have hTnone1 :
        dictGetLast (rowEntries i es' (j0 + 1) (s0 + 2)) (j0, i + 2) = none := by
      refine dictGetLast_eq_none_of_not_mem _ _ ?_
      intro v hv
      rcases rowEntries_key_shape i es' (j0 + 1) (s0 + 2) _ _ v hv with
        ⟨j, hj1, _, hj | hj⟩
      · have h1 : j0 = j := congrArg Prod.fst hj
        omega
      · have h1 : j0 = i + 2 := congrArg Prod.fst hj
        omega
    have hTnone2 :
        dictGetLast (rowEntries i es' (j0 + 1) (s0 + 2)) (i + 2, j0) = none := by
      refine dictGetLast_eq_none_of_not_mem _ _ ?_
      intro v hv
      rcases rowEntries_key_shape i es' (j0 + 1) (s0 + 2) _ _ v hv with
        ⟨j, hj1, _, hj | hj⟩
      · have h1 : j0 = i + 2 := congrArg Prod.snd hj
        omega
      · have h1 : j0 = j := congrArg Prod.snd hj
        omega
    simp only [rowEntries] at h ⊢
    rw [dictGetLast_cons, dictGetLast_cons] at h
    cases hT : dictGetLast (rowEntries i es' (j0 + 1) (s0 + 2)) (a, b) with
    | some w =>
      rw [hT] at h
      simp only [Option.isSome_some, if_true, Option.some.injEq] at h
      subst h
      rcases ih (j0 + 1) (s0 + 2) hlen' hT with ⟨t, hTt, hne, hadj⟩
      refine ⟨t, ?_, hne, hadj⟩
      rw [dictGetLast_cons, dictGetLast_cons, hTt]
      simp
    | none =>
      rw [hT] at h
      simp only [Option.isSome_none, Bool.false_eq_true, if_false] at h
      by_cases hk2 : ((i + 2 : ℕ), j0) = (a, b)
      · rw [if_pos hk2] at h
        simp only [Option.isSome_some, if_true, Option.some.injEq] at h
        have ha : a = i + 2 := (congrArg Prod.fst hk2).symm
        have hb : b = j0 := (congrArg Prod.snd hk2).symm
        refine ⟨s0, ?_, by omega, by omega⟩
        rw [dictGetLast_cons, dictGetLast_cons, ha, hb, hTnone1]
        have hne12 : ¬((i + 2 : ℕ), j0) = (j0, i + 2) := by
          simp only [Prod.mk.injEq]
          omega
        simp only [Option.isSome_none, Bool.false_eq_true, if_false,
          if_neg hne12, if_pos rfl]
        simp
      · rw [if_neg hk2] at h
        simp only [Option.isSome_none, Bool.false_eq_true, if_false] at h
        by_cases hk1 : ((j0 : ℕ), i + 2) = (a, b)
        · rw [if_pos hk1] at h
          simp only [Option.some.injEq] at h
          have ha : a = j0 := (congrArg Prod.fst hk1).symm
          have hb : b = i + 2 := (congrArg Prod.snd hk1).symm
          refine ⟨s0 + 1, ?_, by omega, by omega⟩
          rw [dictGetLast_cons, dictGetLast_cons, ha, hb, hTnone2]
          simp only [Option.isSome_none, Bool.false_eq_true, if_false,
            if_pos rfl, Option.isSome_some, if_true]
        · rw [if_neg hk1] at h
          cases h

/-- **C7** helper: across all rows, every directed key of `edge_to_index`
has its reversed key present at the adjacent state index. -/
theorem edgeIndexEntries_partner {E : Type*} (rows : List (List E))
    (i0 s0 : ℕ)
    (hsh : ∀ i, i < rows.length → (rows.getD i []).length ≤ i0 + i + 2)
    (a b s : ℕ)
    (h : dictGetLast (edgeIndexEntries rows i0 s0) (a, b) = some s) :
    ∃ t, dictGetLast (edgeIndexEntries rows i0 s0) (b, a) = some t ∧
      t ≠ s ∧ (t = s + 1 ∨ s = t + 1) := by
  induction rows generalizing i0 s0 with
  | nil => simp [edgeIndexEntries, dictGetLast] at h
  | cons row rest ih =>
    have hrow : row.length ≤ i0 + 2 := by
      have := hsh 0 (by simp)
      simpa using this
    have hsh' : ∀ i, i < rest.length → (rest.getD i []).length ≤ (i0 + 1) + i + 2 := by
      intro i hi
      have := hsh (i + 1) (by simp; omega)
      simp only [List.getD_cons_succ] at this
      omega
    simp only [edgeIndexEntries] at h ⊢
    rw [dictGetLast_append] at h ⊢
    cases hB : dictGetLast (edgeIndexEntries rest (i0 + 1) (s0 + 2 * row.length)) (a, b) with
    | some w =>
      rw [hB] at h
      simp only [Option.some.injEq] at h
      subst h
      rcases ih (i0 + 1) (s0 + 2 * row.length) hsh' hB with ⟨t, hBt, hne, hadj⟩
      refine ⟨t, ?_, hne, hadj⟩
      rw [hBt]
    | none =>
      rw [hB] at h
      have hR := h
      rcases rowEntries_partner i0 row 0 s0 (by omega) a b s hR with ⟨t, hRt, hne, hadj⟩
      have hmem := dictGetLast_eq_some_mem _ _ _ hR
      rcases rowEntries_key_shape i0 row 0 s0 a b s hmem with ⟨j, _, hj2, hj | hj⟩
      · have ha : a = j := congrArg Prod.fst hj
        have hb : b = i0 + 2 := congrArg Prod.snd hj
        have hBnone : dictGetLast
            (edgeIndexEntries rest (i0 + 1) (s0 + 2 * row.length)) (b, a) = none := by
          refine dictGetLast_eq_none_of_not_mem _ _ ?_
          intro v hv
          have hlb := edgeIndexEntries_key_lb rest (i0 + 1)
            (s0 + 2 * row.length) b a v hv
          have hmax : max b a ≤ i0 + 2 := by
            simp only [Nat.zero_add] at hj2
            simp only [Nat.max_le]
            omega
          omega
        rw [hBnone]
        exact ⟨t, hRt, hne, hadj⟩
      · have ha : a = i0 + 2 := congrArg Prod.fst hj
        have hb : b = j := congrArg Prod.snd hj
        have hBnone : dictGetLast
            (edgeIndexEntries rest (i0 + 1) (s0 + 2 * row.length)) (b, a) = none := by
          refine dictGetLast_eq_none_of_not_mem _ _ ?_
          intro v hv
          have hlb := edgeIndexEntries_key_lb rest (i0 + 1)
            (s0 + 2 * row.length) b a v hv
          have hmax : max b a ≤ i0 + 2 := by
            simp only [Nat.zero_add] at hj2
            simp only [Nat.max_le]
            omega
          omega
        rw [hBnone]
        exact ⟨t, hRt, hne, hadj⟩

/-- **C7** (confirmed).  After every state-table rebuild, the two directions
`(a, b)` and `(b, a)` of every edge present in `edge_to_index` map to two
distinct adjacent state indices differing by exactly `1`.  The shape
hypothesis reflects the meta-model's weight layout (row `i` holds at most
`i + 2` incoming edges, one per earlier node), which is what keeps the
loop's dictionary keys collision-free. -/
theorem edge_to_index_pairs_adjacent (e e' : Env)
    (h : updateStates e = Except.ok e')
    (hshape : ∀ i, i < e'.normalizedAlphas.length →
      (e'.normalizedAlphas.getD i []).length ≤ i + 2)
    (a b s : ℕ)
    (hs : dictGetLast e'.edgeToIndex (a, b) = some s) :
    ∃ t, dictGetLast e'.edgeToIndex (b, a) = some t ∧
      t ≠ s ∧ (t = s + 1 ∨ s = t + 1) := by
  have hidx : e'.edgeToIndex = buildEdgeToIndex e'.normalizedAlphas := by
    unfold updateStates at h
    by_cases h1 : e.cellType = "normal"
    · rw [if_pos h1] at h
      cases h
      rfl
    · rw [if_neg h1] at h
      by_cases h2 : e.cellType = "reduce"
      · rw [if_pos h2] at h
        cases h
        rfl
      · rw [if_neg h2] at h
        cases h
  rw [hidx] at hs ⊢
  exact edgeIndexEntries_partner _ 0 0 (by simpa using hshape) a b s hs

/-- A concrete environment for exercising the rebuild: `normal` cell type,
4 nodes, one alpha row holding two edges with a single operation each. -/
noncomputable def envC7 : Env where
  cellType := "normal"
  nNodes := 4
  nOps := 1
  maxEpLen := 10
  alphaNormal := [[[0], [0]]]
  alphaReduce := []
  normalizedAlphas := []
  alphas := []
  states := []
  edgeToIndex := []
  edgeToAlpha := []
  currentStateIndex := 0
  currentState := ⟨0, 2, 0, [], []⟩
  stepCount := 0
  terminateEpisode := false
  baselineAcc := 0
  maxAcc := 0
  maxAlphas := []

/-- `envC7` after one state-table rebuild. -/
noncomputable def envC7' : Env := (updateStates envC7).toOption.getD envC7

/-- Witness for `edge_to_index_pairs_adjacent`: in the rebuilt `envC7'` the
key `(0, 2)` maps to index `0` and its reverse `(2, 0)` to the adjacent
index. -/
theorem edge_to_index_pairs_adjacent_witness :
    updateStates envC7 = Except.ok envC7' ∧
    (∀ i, i < envC7'.normalizedAlphas.length →
      (envC7'.normalizedAlphas.getD i []).length ≤ i + 2) ∧
    dictGetLast envC7'.edgeToIndex (0, 2) = some 0 ∧
    ∃ t, dictGetLast envC7'.edgeToIndex (2, 0) = some t ∧
      t ≠ 0 ∧ (t = 0 + 1 ∨ 0 = t + 1) :=
  ⟨rfl, by decide, rfl,
    edge_to_index_pairs_adjacent envC7 envC7' rfl (by decide) 0 2 0 rfl⟩

/-! ## Actions and the step function (`_perform_action`, `step`) -/

/-- Write one normalized/raw row back into the nested row structure
(`xss[row][edge] = v`). -/
def set2 (xss : List (List (List ℝ))) (row edge : ℕ) (v : List ℝ) :
    List (List (List ℝ)) :=
  xss.set row ((xss.getD row []).set edge v)

/-- `NasEnv.increase_op` at the environment level: mutate the normalized view
in place and, on success, write `inverse_softmax(curr_edge, ln 10)` back into
`meta_model.alpha_normal`. -/
noncomputable def envIncreaseOp (e : Env) (rowIdx edgeIdx opIdx : ℕ) :
    Bool × Env :=
  match increaseOp ((e.normalizedAlphas.getD rowIdx []).getD edgeIdx [])
      opIdx (3/10) with
  | (true, y) =>
    (true, { e with
      normalizedAlphas := set2 e.normalizedAlphas rowIdx edgeIdx y
      alphaNormal := set2 e.alphaNormal rowIdx edgeIdx
        (inverseSoftmax y (Real.log 10)) })
  | (false, _) => (false, e)

/-- `NasEnv.decrease_op` at the environment level. -/
noncomputable def envDecreaseOp (e : Env) (rowIdx edgeIdx opIdx : ℕ) :
    Bool × Env :=
  match decreaseOp ((e.normalizedAlphas.getD rowIdx []).getD edgeIdx [])
      opIdx (3/10) with
  | (true, y) =>
    (true, { e with
      normalizedAlphas := set2 e.normalizedAlphas rowIdx edgeIdx y
      alphaNormal := set2 e.alphaNormal rowIdx edgeIdx
        (inverseSoftmax y (Real.log 10)) })
  | (false, _) => (false, e)

/-- `NasEnv.update_meta_model`: dispatch on the cell type; the `reduce`
mutation path raises `NotImplementedError`. -/
noncomputable def updateMetaModel (e : Env) (increase : Bool)
    (rowIdx edgeIdx opIdx : ℕ) : Except String (Bool × Env) :=
  if e.cellType = "normal" then
    Except.ok (if increase then envIncreaseOp e rowIdx edgeIdx opIdx
      else envDecreaseOp e rowIdx edgeIdx opIdx)
  else if e.cellType = "reduce" then
    Except.error "Only normal cell is working"
  else
    Except.error ("Cell type " ++ e.cellType ++ " is not supported.")

/-- The `(action_info, reward, acc)` triple `_perform_action` returns. -/
structure ActionOut where
  actionInfo : String
  reward : ℚ
  acc : Option ℚ

/-- `NasEnv._perform_action`: decode the flat action id into traverse /
increase / decrease / terminate (the four ranges are disjoint, so the
sequential `if`s of the source fire at most once and are modelled as an
`if`-chain).  Reward computation is the non-test path of `compute_reward`:
the externally estimated accuracy `estim` is scaled against the running
baseline.  Python `KeyError` / `IndexError` on the dict and table lookups
surface as `Except.error`. -/
noncomputable def performAction (estim : Env → ℚ) (e : Env) (action : ℕ) :
    Except String (Env × ActionOut) :=
  if action < e.nNodes then
    if Amat e.currentState.toNode action > 0 then
      match dictGetLast e.edgeToIndex (e.currentState.toNode, action) with
      | some sIdx =>
        match e.states.get? sIdx with
        | some st =>
          Except.ok ({ e with currentState := st },
            ⟨s!"Legal move from {e.currentState.toNode} to {action}", 0, none⟩)
        | none => Except.error "IndexError: states"
      | none => Except.error "KeyError: edge_to_index"
    else if Amat e.currentState.toNode action < 1 then
      Except.ok (e,
        ⟨s!"Illegal move from {e.currentState.fromNode} to {action}",
          -1/10, none⟩)
    else
      Except.ok (e, ⟨"", 0, none⟩)
  else if action < e.nNodes + e.nOps then
    match dictGetLast e.edgeToAlpha
        (e.currentState.fromNode, e.currentState.toNode),
      dictGetLast e.edgeToIndex
        (e.currentState.fromNode, e.currentState.toNode) with
    | some rc, some sIdx =>
      (updateMetaModel e true rc.1 rc.2 (action - e.nNodes)).bind (fun ue =>
        (if ue.1 then updateStates ue.2 else Except.ok ue.2).bind (fun e2 =>
          match e2.states.get? sIdx with
          | some st =>
            Except.ok ({ e2 with currentState := st },
              ⟨s!"Increase alpha ({rc.1}, {rc.2}, {action - e.nNodes})",
                scaleReward e2.baselineAcc (estim e2), some (estim e2)⟩)
          | none => Except.error "IndexError: states"))
    | _, _ => Except.error "KeyError"
  else if action < e.nNodes + 2 * e.nOps then
    match dictGetLast e.edgeToAlpha
        (e.currentState.fromNode, e.currentState.toNode),
      dictGetLast e.edgeToIndex
        (e.currentState.fromNode, e.currentState.toNode) with
    | some rc, some sIdx =>
      (updateMetaModel e false rc.1 rc.2 (action - e.nNodes - e.nOps)).bind
        (fun ue =>
          (if ue.1 then updateStates ue.2 else Except.ok ue.2).bind (fun e2 =>
            match e2.states.get? sIdx with
            | some st =>
              Except.ok ({ e2 with currentState := st },
                ⟨s!"Decrease alpha ({rc.1}, {rc.2}, {action - e.nNodes - e.nOps})",
                  scaleReward e2.baselineAcc (estim e2), some (estim e2)⟩)
            | none => Except.error "IndexError: states"))
    | _, _ => Except.error "KeyError"
  else if action < e.nNodes + 2 * e.nOps + 1 then
    Except.ok ({ e with terminateEpisode := true },
      ⟨s!"Terminate the episode at step {e.stepCount}", 0, none⟩)
  else
    Except.ok (e, ⟨"", 0, none⟩)

/-- The observation/reward/done/info tuple returned by `step`
(`running_time` is wall-clock time and is not modelled). -/
structure StepOut where
  obs : StateRow
  reward : ℚ
  done : Bool
  stepCount : ℕ
  actionId : ℕ
  actionInfo : String
  acc : Option ℚ

/-- `NasEnv.step`: perform the action, absorb a positive accuracy into the
baseline (and the best-seen tracking), advance the step counter, and report
`done` when the counter reaches `max_ep_len` or the episode was
terminated. -/
noncomputable def step (estim : Env → ℚ) (e : Env) (action : ℕ) :
    Except String (Env × StepOut) :=
  (performAction estim e action).bind (fun r =>
    let e2 :=
      match r.2.acc with
      | some a =>
        if a > 0 then
          if r.1.maxAcc < a then
            { r.1 with
              baselineAcc := a
              maxAcc := a
              maxAlphas := r.1.alphaNormal }
          else
            { r.1 with baselineAcc := a }
        else r.1
      | none => r.1
    Except.ok ({ e2 with stepCount := e2.stepCount + 1 },
      ⟨e2.currentState, r.2.reward,
        ((e2.stepCount + 1 : ℕ) == e2.maxEpLen) || e2.terminateEpisode,
        e2.stepCount + 1, action, r.2.actionInfo, r.2.acc⟩))

/-- **C8** (confirmed).  With the termination flag unset, a traversal action
whose target is not adjacent to the current edge's `to_node` raises no
error, yields reward `-0.1`, leaves the current edge / observation and every
other piece of episode state unchanged (only the step counter advances), and
the step's `done` flag is true exactly when the incremented step count
equals the maximum episode length. -/
theorem illegal_traverse_step (estim : Env → ℚ) (e : Env) (action : ℕ)
    (hterm : e.terminateEpisode = false)
    (ha : action < e.nNodes)
    (hnext : e.currentState.toNode < e.nNodes)
    (hadj : Amat e.currentState.toNode action = 0) :
    step estim e action = Except.ok
      ({ e with stepCount := e.stepCount + 1 },
       ⟨e.currentState, -1/10,
        ((e.stepCount + 1 : ℕ) == e.maxEpLen),
        e.stepCount + 1, action,
        s!"Illegal move from {e.currentState.fromNode} to {action}",
        none⟩) := by
  unfold step performAction
  rw [if_pos ha, if_neg (by rw [hadj]; exact lt_irrefl 0),
    if_pos (by rw [hadj]; norm_num)]
  simp only [Except.bind, hterm, Bool.or_false]

/-- A concrete environment on the edge `0 → 2` of a 4-node cell, used to
exercise the step function. -/
noncomputable def envC8 : Env where
  cellType := "normal"
  nNodes := 4
  nOps := 3
  maxEpLen := 10
  alphaNormal := []
  alphaReduce := []
  normalizedAlphas := []
  alphas := []
  states := []
  edgeToIndex := []
  edgeToAlpha := []
  currentStateIndex := 0
  currentState := ⟨0, 2, 0, [], []⟩
  stepCount := 0
  terminateEpisode := false
  baselineAcc := 0
  maxAcc := 0
  maxAlphas := []

/-- Witness for `illegal_traverse_step`: in `envC8` the traversal action `2`
targets the current `to_node` itself (`A[2][2] = 0`), so the move is
illegal. -/
theorem illegal_traverse_step_witness :
    (2 < envC8.nNodes) ∧ Amat envC8.currentState.toNode 2 = 0 ∧
    step (fun _ => 0) envC8 2 = Except.ok
      ({ envC8 with stepCount := envC8.stepCount + 1 },
       ⟨envC8.currentState, -1/10,
        ((envC8.stepCount + 1 : ℕ) == envC8.maxEpLen),
        envC8.stepCount + 1, 2,
        s!"Illegal move from {envC8.currentState.fromNode} to {2}",
        none⟩) :=
  ⟨by decide, rfl,
    illegal_traverse_step (fun _ => 0) envC8 2 rfl (by decide) (by decide) rfl⟩

end MetaNas
